import Mathlib

/-!
Shallow embedding of the Wordle game core from `src/wordle/script.js`:
the two-pass guess evaluation, the word-list loading pipeline, dictionary
membership, the submit/win/lose state machine and the keyboard-status
merge, together with proofs of the specified properties.
-/

/-- `WORD_LENGTH` constant of `script.js` (line 2). -/
def WORD_LENGTH : Nat := 5

/-- `MAX_GUESSES` constant of `script.js` (line 1). -/
def MAX_GUESSES : Nat := 6

/-- A JavaScript string, modelled as its list of characters. -/
abbrev JStr := List Char

/-- Per-tile feedback status: the `'correct' | 'present' | 'absent'`
strings written into `states` by `submitGuess`. -/
inductive TileStatus
  | correct
  | present
  | absent
deriving DecidableEq

/-- The `letterCount` object built in `submitGuess` (lines 220-221):
`letterCount[ch]` = number of occurrences of `ch` in the target.
A character absent from the target maps to 0, matching the JS reading
of a missing key (`undefined > 0` is false). -/
def letterCount (target : JStr) : Char → Nat :=
  fun c => target.count c

/-- The in-place decrement `letterCount[ch]--` of `submitGuess`.
Truncated subtraction is faithful: both passes only ever decrement an
entry that is positive. -/
def decr (cnt : Char → Nat) (c : Char) : Char → Nat :=
  fun x => if x = c then cnt x - 1 else cnt x

/-- First pass of `submitGuess` (lines 223-230): positions where the
guess letter equals the target letter become `correct` and consume one
occurrence from `letterCount`; all other positions keep the initial
`'absent'` fill.  Returns the statuses and the updated count map. -/
def pass1 : JStr → JStr → (Char → Nat) → List TileStatus × (Char → Nat)
  | g :: gs, t :: ts, cnt =>
    if g = t then
      let rest := pass1 gs ts (decr cnt g)
      (TileStatus.correct :: rest.1, rest.2)
    else
      let rest := pass1 gs ts cnt
      (TileStatus.absent :: rest.1, rest.2)
  | _, _, cnt => ([], cnt)

/-- Second pass of `submitGuess` (lines 232-237): a still-`absent`
position whose letter has a positive remaining count becomes `present`
and consumes one occurrence. -/
def pass2 : JStr → List TileStatus → (Char → Nat) → List TileStatus
  | g :: gs, st :: sts, cnt =>
    if st = TileStatus.absent ∧ cnt g > 0 then
      TileStatus.present :: pass2 gs sts (decr cnt g)
    else
      st :: pass2 gs sts cnt
  | _, _, _ => []

/-- The full two-pass evaluation of `submitGuess` (lines 219-237),
as a pure function of target and guess. -/
def evaluate (target guess : JStr) : List TileStatus :=
  let p := pass1 guess target (letterCount target)
  pass2 guess p.1 p.2

/-- Number of positions `i` whose status is `st` and whose guess letter
is `c`, walking the status list and the guess in parallel. -/
def countLetterStatus : List TileStatus → JStr → Char → TileStatus → Nat
  | s :: sts, g :: gs, c, st =>
    (if s = st ∧ g = c then 1 else 0) + countLetterStatus sts gs c st
  | _, _, _, _ => 0

theorem pass1_no_present (gs ts : JStr) (cnt : Char → Nat) (c : Char) :
    countLetterStatus (pass1 gs ts cnt).1 gs c TileStatus.present = 0 := by
  induction gs generalizing ts cnt with
  | nil => cases ts <;> simp [pass1, countLetterStatus]
  | cons g gs ih =>
    cases ts with
    | nil => simp [pass1, countLetterStatus]
    | cons t ts =>
      by_cases hgt : g = t
      · simp [pass1, hgt, countLetterStatus, ih]
      · simp [pass1, hgt, countLetterStatus, ih]

theorem pass1_snd (gs ts : JStr) (cnt : Char → Nat) (c : Char) :
    (pass1 gs ts cnt).2 c =
      cnt c - countLetterStatus (pass1 gs ts cnt).1 gs c TileStatus.correct := by
  induction gs generalizing ts cnt with
  | nil => cases ts <;> simp [pass1, countLetterStatus]
  | cons g gs ih =>
    cases ts with
    | nil => simp [pass1, countLetterStatus]
    | cons t ts =>
      by_cases hgt : g = t
      · subst hgt
        by_cases hgc : g = c
        · subst hgc
          simp [pass1, countLetterStatus]
          rw [ih]
          simp [decr]
          omega
        · simp [pass1, countLetterStatus, hgc]
          rw [ih]
          simp [decr, Ne.symm hgc]
      · simp [pass1, hgt, countLetterStatus, ih]

theorem pass1_correct_le (gs ts : JStr) (cnt : Char → Nat) (c : Char) :
    countLetterStatus (pass1 gs ts cnt).1 gs c TileStatus.correct ≤ ts.count c := by
  induction gs generalizing ts cnt with
  | nil => cases ts <;> simp [pass1, countLetterStatus]
  | cons g gs ih =>
    cases ts with
    | nil => simp [pass1, countLetterStatus]
    | cons t ts =>
      rw [List.count_cons]
      by_cases hgt : g = t
      · subst hgt
        by_cases hgc : g = c
        · subst hgc
          have h := ih ts (decr cnt g)
          simp [pass1, countLetterStatus]
          omega
        · have h := ih ts (decr cnt g)
          simp [pass1, countLetterStatus, hgc]
          omega
      · have h := ih ts cnt
        simp [pass1, hgt, countLetterStatus]
        omega

theorem pass2_correct_eq (gs : JStr) (sts : List TileStatus) (cnt : Char → Nat)
    (c : Char) :
    countLetterStatus (pass2 gs sts cnt) gs c TileStatus.correct =
      countLetterStatus sts gs c TileStatus.correct := by
  induction gs generalizing sts cnt with
  | nil => cases sts <;> simp [pass2, countLetterStatus]
  | cons g gs ih =>
    cases sts with
    | nil => simp [pass2, countLetterStatus]
    | cons st sts =>
      by_cases hcond : st = TileStatus.absent ∧ cnt g > 0
      · simp [pass2, hcond, countLetterStatus, ih, hcond.1]
      · simp [pass2, hcond, countLetterStatus, ih]

theorem pass2_present_le (gs : JStr) (sts : List TileStatus) (cnt : Char → Nat)
    (c : Char) :
    countLetterStatus (pass2 gs sts cnt) gs c TileStatus.present ≤
      countLetterStatus sts gs c TileStatus.present + cnt c := by
  induction gs generalizing sts cnt with
  | nil => cases sts <;> simp [pass2, countLetterStatus]
  | cons g gs ih =>
    cases sts with
    | nil => simp [pass2, countLetterStatus]
    | cons st sts =>
      by_cases hcond : st = TileStatus.absent ∧ cnt g > 0
      · by_cases hgc : g = c
        · subst hgc
          have h := ih sts (decr cnt g)
          simp [pass2, hcond, countLetterStatus, hcond.1, decr] at h ⊢
          omega
        · have h := ih sts (decr cnt g)
          simp [pass2, hcond, countLetterStatus, hcond.1, hgc, decr,
            Ne.symm hgc] at h ⊢
          omega
      · have h := ih sts cnt
        by_cases hst : st = TileStatus.present ∧ g = c
        · simp [pass2, hcond, countLetterStatus, hst]
          omega
        · simp [pass2, hcond, countLetterStatus, hst]
          omega

/-- Concrete scenario check: target `CRANE`, guess `REACT`. -/
theorem crane_react_eval :
    evaluate "CRANE".toList "REACT".toList =
      [TileStatus.present, TileStatus.present, TileStatus.correct,
        TileStatus.present, TileStatus.absent] := by
  decide

/-- Conservation: for every letter `c`, the number of `Correct`-or-`Present`
positions carrying `c` in the evaluation result is at most the number of
occurrences of `c` in the target. -/
theorem eval_conservation (target guess : JStr) (c : Char)
    (_ht : target.length = WORD_LENGTH) (_hg : guess.length = WORD_LENGTH) :
    countLetterStatus (evaluate target guess) guess c TileStatus.correct +
      countLetterStatus (evaluate target guess) guess c TileStatus.present ≤
      target.count c := by
  have h1 := pass1_no_present guess target (letterCount target) c
  have h2 := pass1_snd guess target (letterCount target) c
  have h3 := pass1_correct_le guess target (letterCount target) c
  have h4 := pass2_present_le guess (pass1 guess target (letterCount target)).1
      (pass1 guess target (letterCount target)).2 c
  have h5 := pass2_correct_eq guess (pass1 guess target (letterCount target)).1
      (pass1 guess target (letterCount target)).2 c
  simp only [letterCount] at h2
  simp only [evaluate, letterCount]
  omega

theorem eval_conservation_witness :
    countLetterStatus (evaluate "CRANE".toList "REACT".toList) "REACT".toList 'C'
        TileStatus.correct +
      countLetterStatus (evaluate "CRANE".toList "REACT".toList) "REACT".toList 'C'
        TileStatus.present ≤ ("CRANE".toList).count 'C' :=
  eval_conservation "CRANE".toList "REACT".toList 'C' (by decide) (by decide)

theorem pass1_self_fst (gs : JStr) (cnt : Char → Nat) :
    (pass1 gs gs cnt).1 = List.replicate gs.length TileStatus.correct := by
  induction gs generalizing cnt with
  | nil => simp [pass1]
  | cons g gs ih => simp [pass1, List.replicate, ih]

theorem pass2_replicate_correct (gs : JStr) (n : Nat) (cnt : Char → Nat) :
    pass2 gs (List.replicate n TileStatus.correct) cnt =
      List.replicate (min gs.length n) TileStatus.correct := by
  induction gs generalizing n cnt with
  | nil => simp [pass2]
  | cons g gs ih =>
    cases n with
    | zero => simp [pass2]
    | succ n =>
      simp [pass2, List.replicate, ih, Nat.succ_min_succ]

/-- Exact match: evaluating a word against itself yields `Correct` at
every one of the `WORD_LENGTH` positions. -/
theorem eval_self_all_correct (w : JStr) (hw : w.length = WORD_LENGTH) :
    evaluate w w = List.replicate WORD_LENGTH TileStatus.correct := by
  simp only [evaluate]
  rw [pass1_self_fst, pass2_replicate_correct, hw]
  simp

theorem eval_self_all_correct_witness :
    evaluate "CRANE".toList "CRANE".toList =
      List.replicate WORD_LENGTH TileStatus.correct :=
  eval_self_all_correct "CRANE".toList (by decide)

theorem pass2_get_correct (gs : JStr) (sts : List TileStatus) (cnt : Char → Nat)
    (i : Nat) (h : (pass2 gs sts cnt).get? i = some TileStatus.correct) :
    sts.get? i = some TileStatus.correct := by
  induction gs generalizing sts cnt i with
  | nil => simp [pass2] at h
  | cons g gs ih =>
    cases sts with
    | nil => simp [pass2] at h
    | cons st sts =>
      by_cases hcond : st = TileStatus.absent ∧ cnt g > 0
      · rw [show pass2 (g :: gs) (st :: sts) cnt =
            TileStatus.present :: pass2 gs sts (decr cnt g) by
          simp [pass2, hcond]] at h
        cases i with
        | zero => simp at h
        | succ i =>
          simp only [List.get?] at h ⊢
          exact ih sts (decr cnt g) i h
      · rw [show pass2 (g :: gs) (st :: sts) cnt = st :: pass2 gs sts cnt by
          simp [pass2, hcond]] at h
        cases i with
        | zero => simpa using h
        | succ i =>
          simp only [List.get?] at h ⊢
          exact ih sts cnt i h

theorem pass1_get_correct (gs ts : JStr) (cnt : Char → Nat) (i : Nat)
    (h : ((pass1 gs ts cnt).1).get? i = some TileStatus.correct) :
    gs.get? i = ts.get? i := by
  induction gs generalizing ts cnt i with
  | nil => simp [pass1] at h
  | cons g gs ih =>
    cases ts with
    | nil => simp [pass1] at h
    | cons t ts =>
      by_cases hgt : g = t
      · subst hgt
        rw [show (pass1 (g :: gs) (g :: ts) cnt).1 =
            TileStatus.correct :: (pass1 gs ts (decr cnt g)).1 by
          simp [pass1]] at h
        cases i with
        | zero => simp
        | succ i =>
          simp only [List.get?] at h ⊢
          exact ih ts (decr cnt g) i h
      · rw [show (pass1 (g :: gs) (t :: ts) cnt).1 =
            TileStatus.absent :: (pass1 gs ts cnt).1 by
          simp [pass1, hgt]] at h
        cases i with
        | zero => simp at h
        | succ i =>
          simp only [List.get?] at h ⊢
          exact ih ts cnt i h

/-- Win-check agreement: an all-`Correct` evaluation can only happen when
the guess is the target word itself, so tile display and the
`guessWord === WORD` test never disagree. -/
theorem eval_all_correct_imp_eq (target guess : JStr)
    (ht : target.length = WORD_LENGTH) (hg : guess.length = WORD_LENGTH)
    (h : evaluate target guess = List.replicate WORD_LENGTH TileStatus.correct) :
    guess = target := by
  simp only [WORD_LENGTH] at ht hg h
  apply List.ext_get?
  intro i
  by_cases hi : i < 5
  · have hres : (evaluate target guess).get? i = some TileStatus.correct := by
      rw [h]
      interval_cases i <;> rfl
    simp only [evaluate] at hres
    exact pass1_get_correct guess target (letterCount target) i
      (pass2_get_correct guess _ _ i hres)
  · rw [List.get?_eq_none.2 (by omega), List.get?_eq_none.2 (by omega)]

theorem eval_all_correct_imp_eq_witness : "CRANE".toList = "CRANE".toList :=
  eval_all_correct_imp_eq "CRANE".toList "CRANE".toList (by decide) (by decide)
    (by decide)

/-- ASCII whitespace removed by JavaScript `String.prototype.trim`
(space, tab, line feed, carriage return, vertical tab, form feed). -/
def isSpaceChar (c : Char) : Bool :=
  c = ' ' || c = '\t' || c = '\n' || c = '\r' ||
    c = Char.ofNat 11 || c = Char.ofNat 12

/-- JavaScript `w.trim()`: drop whitespace from both ends. -/
def trimStr (s : JStr) : JStr :=
  ((s.dropWhile isSpaceChar).reverse.dropWhile isSpaceChar).reverse

/-- JavaScript `w.toUpperCase()` on ASCII input: uppercase each letter. -/
def upperStr (s : JStr) : JStr :=
  s.map Char.toUpper

/-- JavaScript `text.split(/\r?\n/)` (line 27 of `script.js`): cut the
text at every line feed, eating a carriage return immediately before it;
a lone carriage return is kept inside its line. -/
def splitLines : JStr → List JStr
  | [] => [[]]
  | '\r' :: '\n' :: rest => [] :: splitLines rest
  | '\n' :: rest => [] :: splitLines rest
  | c :: rest =>
    match splitLines rest with
    | [] => [[c]]
    | l :: ls => (c :: l) :: ls

/-- The word-list loading pipeline of `script.js` lines 26-29:
`text.split(/\r?\n/).filter(w => w.length === WORD_LENGTH)
     .map(w => w.trim().toUpperCase())`.
Note the filter tests the raw line length, before trimming. -/
def loadWords (text : JStr) : List JStr :=
  ((splitLines text).filter (fun w => w.length == WORD_LENGTH)).map
    (fun w => upperStr (trimStr w))

/-- `isValidWord` of `script.js` lines 189-191: exact membership in the
loaded `validWords` list (`validWords.includes(w)`). -/
def isValidWord (validWords : List JStr) (w : JStr) : Bool :=
  validWords.contains w

/-- A word-list line of raw length 5 with a trailing space is kept by the
length filter and then trimmed, so the 4-letter word `ABCD` ends up
stored in `validWords`: loading does not guarantee length 5. -/
theorem load_keeps_short_word :
    loadWords "ABCD ".toList = [['A', 'B', 'C', 'D']] ∧
      (['A', 'B', 'C', 'D'] : JStr).length ≠ WORD_LENGTH := by
  decide

/-- Loading never fails: mixed-length input just drops the lines whose
raw length is not 5 (here producing the usable one-word bank `ABCDE`),
and empty input produces an empty bank rather than an error. -/
theorem load_no_failure_cex :
    loadWords "AB\nABCDE".toList = ["ABCDE".toList] ∧
      loadWords "".toList = ([] : List JStr) := by
  decide

/-- Loading is total: every input yields a bank; the bank is empty exactly
when no raw line has length 5, and every stored word is the trimmed,
uppercased form of some raw line of length 5. -/
theorem loadWords_total (text : JStr) :
    (loadWords text = [] ↔ ∀ w ∈ splitLines text, w.length ≠ WORD_LENGTH) ∧
      ∀ w ∈ loadWords text, ∃ l ∈ splitLines text,
        l.length = WORD_LENGTH ∧ w = upperStr (trimStr l) := by
  constructor
  · simp [loadWords, List.filter_eq_nil_iff]
  · intro w hw
    simp only [loadWords, List.mem_map, List.mem_filter] at hw
    obtain ⟨l, ⟨hl, hlen⟩, rfl⟩ := hw
    exact ⟨l, hl, by simpa using hlen, rfl⟩

/-- Membership is case-sensitive exact matching: the lowercase query
`crane` is rejected even though its uppercase form is in the bank. -/
theorem isValidWord_case_cex :
    isValidWord ["CRANE".toList] "crane".toList = false ∧
      isValidWord ["CRANE".toList] (upperStr "crane".toList) = true := by
  decide

/-- `isValidWord` is plain list membership; queries already in canonical
uppercase form (as every in-game guess is) are unchanged by
uppercasing, so for them the case-insensitivity equation holds. -/
theorem isValidWord_exact (validWords : List JStr) (w : JStr) :
    (isValidWord validWords w = true ↔ w ∈ validWords) ∧
      (upperStr w = w →
        isValidWord validWords w = isValidWord validWords (upperStr w)) := by
  constructor
  · simp [isValidWord]
  · intro h
    rw [h]

/-- Session outcome: `InProgress` while the game is running, `Won` when the
win branch of `submitGuess` (line 270) fires, `Lost` when the lose branch
(line 278) fires.  `Won`/`Lost` correspond to `gameOver = true` together
with the message shown. -/
inductive SessionStatus
  | inProgress
  | won
  | lost
deriving DecidableEq

/-- The named submit failures: `'Not enough letters'` (line 198) and
`'Not in word list'` (line 214). -/
inductive GuessError
  | incompleteGuess
  | notInDictionary
deriving DecidableEq

/-- The session state of `script.js`: the target `WORD`, `currentRow`,
the outcome, and the submitted rows of the grid (the attempt log). -/
structure GameState where
  target : JStr
  currentRow : Nat
  status : SessionStatus
  attempts : List JStr
deriving DecidableEq

/-- The state right after `resetGame`/`chooseNewWord`: row 0, game running,
no submitted rows. -/
def initSession (target : JStr) : GameState :=
  { target := target, currentRow := 0, status := SessionStatus.inProgress,
    attempts := [] }

/-- `submitGuess` of `script.js` (lines 194-290) as a state transformer:
reject an incomplete row (`currentTile !== WORD_LENGTH`), reject a word
not in the dictionary (both without touching the session), otherwise
record the row and either win (`guessWord === WORD`), lose
(`currentRow === MAX_GUESSES - 1`) or advance to the next row. -/
def submitGuess (validWords : List JStr) (s : GameState) (g : JStr) :
    GameState × Option GuessError :=
  if g.length ≠ WORD_LENGTH then
    (s, some GuessError.incompleteGuess)
  else if !isValidWord validWords g then
    (s, some GuessError.notInDictionary)
  else
    let s' := { s with attempts := s.attempts ++ [g] }
    if g = s.target then
      ({ s' with status := SessionStatus.won }, none)
    else if s.currentRow = MAX_GUESSES - 1 then
      ({ s' with status := SessionStatus.lost }, none)
    else
      ({ s' with currentRow := s.currentRow + 1 }, none)

/-- One Enter key press: the keydown handler (line 67) ignores input when
`gameOver` is set, otherwise runs `submitGuess`. -/
def pressEnter (validWords : List JStr) (s : GameState) (g : JStr) : GameState :=
  if s.status = SessionStatus.inProgress then (submitGuess validWords s g).1
  else s

/-- A whole session: submit a sequence of pending words to a fresh game. -/
def playAll (validWords : List JStr) (target : JStr) (gs : List JStr) : GameState :=
  gs.foldl (pressEnter validWords) (initSession target)

/-- Non-consuming rejection: a full-length word that is not in the
dictionary is refused with `NotInDictionary` and the session state —
row counter, attempt log and status — is returned unchanged. -/
theorem submit_invalid_unchanged (validWords : List JStr) (s : GameState)
    (g : JStr) (hlen : g.length = WORD_LENGTH)
    (hval : isValidWord validWords g = false) :
    submitGuess validWords s g = (s, some GuessError.notInDictionary) := by
  simp [submitGuess, hlen, hval]

/-- A sample word bank for witnesses: the single word `CRANE`. -/
def bankEx : List JStr := ["CRANE".toList]

theorem submit_invalid_unchanged_witness :
    submitGuess bankEx (initSession "CRANE".toList) "AAAAA".toList =
      (initSession "CRANE".toList, some GuessError.notInDictionary) :=
  submit_invalid_unchanged bankEx (initSession "CRANE".toList) "AAAAA".toList
    (by decide) (by decide)

/-- Invariant of reachable session states: while in progress the attempt
log matches the row counter, stays below `MAX_GUESSES` and never holds
the target; a won session has the target in its log; a lost session has
exactly `MAX_GUESSES` logged attempts, none of them the target. -/
def sessionInv (s : GameState) : Prop :=
  (s.status = SessionStatus.inProgress →
    s.attempts.length = s.currentRow ∧ s.currentRow < MAX_GUESSES ∧
      s.target ∉ s.attempts) ∧
  (s.status = SessionStatus.won →
    s.target ∈ s.attempts ∧ s.attempts.length ≤ MAX_GUESSES) ∧
  (s.status = SessionStatus.lost →
    s.attempts.length = MAX_GUESSES ∧ s.target ∉ s.attempts)

theorem sessionInv_init (t : JStr) : sessionInv (initSession t) := by
  simp [sessionInv, initSession, MAX_GUESSES]

theorem pressEnter_target (validWords : List JStr) (s : GameState) (g : JStr) :
    (pressEnter validWords s g).target = s.target := by
  unfold pressEnter submitGuess
  repeat' split
  all_goals rfl

theorem sessionInv_pressEnter (validWords : List JStr) (s : GameState)
    (g : JStr) (h : sessionInv s) : sessionInv (pressEnter validWords s g) := by
  unfold pressEnter
  by_cases hs : s.status = SessionStatus.inProgress
  · rw [if_pos hs]
    obtain ⟨hlen, hrow, hmem⟩ := h.1 hs
    unfold submitGuess
    by_cases hg5 : g.length ≠ WORD_LENGTH
    · rw [if_pos hg5]
      exact h
    · rw [if_neg hg5]
      by_cases hv : !isValidWord validWords g
      · rw [if_pos hv]
        exact h
      · rw [if_neg hv]
        by_cases hwin : g = s.target
        · rw [if_pos hwin]
          subst hwin
          refine ⟨by simp, fun _ => ⟨by simp, ?_⟩, by simp⟩
          simp only [List.length_append, List.length_singleton]
          omega
        · rw [if_neg hwin]
          by_cases hlast : s.currentRow = MAX_GUESSES - 1
          · rw [if_pos hlast]
            refine ⟨by simp, by simp, fun _ => ⟨?_, ?_⟩⟩
            · simp only [List.length_append, List.length_singleton]
              simp only [MAX_GUESSES] at hlast hrow ⊢
              omega
            · simp only [List.mem_append, List.mem_singleton]
              rintro (hin | heq)
              · exact hmem hin
              · exact hwin heq.symm
          · rw [if_neg hlast]
            refine ⟨fun _ => ⟨?_, ?_, ?_⟩, by simp [hs], by simp [hs]⟩
            · simp only [List.length_append, List.length_singleton]
              omega
            · simp only [MAX_GUESSES] at hlast hrow ⊢
              omega
            · simp only [List.mem_append, List.mem_singleton]
              rintro (hin | heq)
              · exact hmem hin
              · exact hwin heq.symm
  · rw [if_neg hs]
    exact h

theorem foldl_sessionInv (validWords : List JStr) (gs : List JStr)
    (s : GameState) (h : sessionInv s) :
    sessionInv (gs.foldl (pressEnter validWords) s) ∧
      (gs.foldl (pressEnter validWords) s).target = s.target := by
  induction gs generalizing s with
  | nil => exact ⟨h, rfl⟩
  | cons g gs ih =>
    simp only [List.foldl]
    obtain ⟨hi, ht⟩ :=
      ih (pressEnter validWords s g) (sessionInv_pressEnter validWords s g h)
    exact ⟨hi, by rw [ht, pressEnter_target]⟩

/-- Termination trichotomy: over any whole session the outcome is `Won`
iff some accepted (dictionary-valid, full-length) submission equals the
target, `Lost` iff the 6th accepted submission happens with no
submission equal to the target, and `InProgress` otherwise. -/
theorem session_termination (validWords : List JStr) (t : JStr)
    (gs : List JStr) :
    ((playAll validWords t gs).status = SessionStatus.won ↔
      t ∈ (playAll validWords t gs).attempts) ∧
    ((playAll validWords t gs).status = SessionStatus.lost ↔
      (playAll validWords t gs).attempts.length = MAX_GUESSES ∧
        t ∉ (playAll validWords t gs).attempts) ∧
    ((playAll validWords t gs).status = SessionStatus.inProgress ↔
      (playAll validWords t gs).attempts.length < MAX_GUESSES ∧
        t ∉ (playAll validWords t gs).attempts) := by
  obtain ⟨hinv, htgt⟩ :=
    foldl_sessionInv validWords gs (initSession t) (sessionInv_init t)
  have htg : (List.foldl (pressEnter validWords) (initSession t) gs).target = t :=
    htgt
  obtain ⟨h1, h2, h3⟩ := hinv
  simp only [playAll]
  rw [htg] at h1 h2 h3
  cases hst : (List.foldl (pressEnter validWords) (initSession t) gs).status with
  | inProgress =>
    obtain ⟨hlen, hrow, hnm⟩ := h1 hst
    refine ⟨⟨fun hw => ?_, fun hm => ?_⟩, ⟨fun hl => ?_, fun hc => ?_⟩,
      ⟨fun _ => ⟨?_, hnm⟩, fun _ => rfl⟩⟩
    · exact absurd hw (by decide)
    · exact absurd hm hnm
    · exact absurd hl (by decide)
    · exact absurd hc.1 (by omega)
    · omega
  | won =>
    obtain ⟨hm, _⟩ := h2 hst
    refine ⟨by simp [hst, hm], ⟨by simp [hst], ?_⟩, ⟨by simp [hst], ?_⟩⟩
    · rintro ⟨_, hn⟩
      exact absurd hm hn
    · rintro ⟨_, hn⟩
      exact absurd hm hn
  | lost =>
    obtain ⟨h6, hnm⟩ := h3 hst
    refine ⟨by simp [hst, hnm], by simp [hst, h6, hnm], ⟨by simp [hst], ?_⟩⟩
    rintro ⟨hlt, _⟩
    omega

/-- Recorded status of a key of the on-screen keyboard: `unset` models a
key carrying none of the `correct`/`present`/`absent` CSS classes. -/
inductive KeyStatus
  | unset
  | absent
  | present
  | correct
deriving DecidableEq

/-- The keyboard update of `submitGuess` (lines 250-262) for one tile:
a `correct` tile always paints the key `correct`; a `present` tile paints
it `present` unless it is already `correct`; an `absent` tile paints it
`absent` only when it is neither `correct` nor `present`. -/
def mergeKey (e : KeyStatus) (st : TileStatus) : KeyStatus :=
  match st with
  | TileStatus.correct => KeyStatus.correct
  | TileStatus.present =>
    if e = KeyStatus.correct then e else KeyStatus.present
  | TileStatus.absent =>
    if e = KeyStatus.correct ∨ e = KeyStatus.present then e
    else KeyStatus.absent

/-- The `states.forEach` loop of `submitGuess` (lines 241-264) restricted
to its keyboard effect: merge each `(letter, status)` pair of a guess row
into the per-letter keyboard map, left to right. -/
def mergeResult : (Char → KeyStatus) → List (Char × TileStatus) → Char → KeyStatus
  | kb, [] => kb
  | kb, (a, st) :: rest =>
    mergeResult (fun x => if x = a then mergeKey (kb a) st else kb x) rest

/-- Rank of a key status under the order Absent < Present < Correct, with
an untouched key below every observed status. -/
def krank : KeyStatus → Nat
  | KeyStatus.unset => 0
  | KeyStatus.absent => 1
  | KeyStatus.present => 2
  | KeyStatus.correct => 3

/-- Maximum of two key statuses under `krank`. -/
def kmax (a b : KeyStatus) : KeyStatus :=
  if krank a < krank b then b else a

/-- A tile status viewed as a key status. -/
def tileKey : TileStatus → KeyStatus
  | TileStatus.correct => KeyStatus.correct
  | TileStatus.present => KeyStatus.present
  | TileStatus.absent => KeyStatus.absent

theorem mergeKey_eq_kmax (e : KeyStatus) (st : TileStatus) :
    mergeKey e st = kmax e (tileKey st) := by
  cases e <;> cases st <;> rfl

theorem mergeKey_correct_fix (st : TileStatus) :
    mergeKey KeyStatus.correct st = KeyStatus.correct := by
  cases st <;> rfl

theorem mergeResult_correct_fix (pairs : List (Char × TileStatus))
    (kb : Char → KeyStatus) (c : Char) (h : kb c = KeyStatus.correct) :
    mergeResult kb pairs c = KeyStatus.correct := by
  induction pairs generalizing kb with
  | nil => exact h
  | cons p rest ih =>
    obtain ⟨a, st⟩ := p
    simp only [mergeResult]
    apply ih
    by_cases hca : c = a
    · subst hca
      simp [h, mergeKey_correct_fix]
    · simp [hca, h]

/-- Monotonic keyboard merging: each per-tile merge is exactly the
maximum of the recorded and the observed status under
Absent < Present < Correct, and a letter recorded `Correct` stays
`Correct` through every later merge, within a row and across any
sequence of further guess rows. -/
theorem keyboard_merge_monotone :
    (∀ e st, mergeKey e st = kmax e (tileKey st)) ∧
    (∀ (kb : Char → KeyStatus) (pairs : List (Char × TileStatus)) (c : Char),
      kb c = KeyStatus.correct → mergeResult kb pairs c = KeyStatus.correct) ∧
    (∀ (kb : Char → KeyStatus) (rows : List (List (Char × TileStatus)))
      (c : Char), kb c = KeyStatus.correct →
        (rows.foldl mergeResult kb) c = KeyStatus.correct) := by
  refine ⟨mergeKey_eq_kmax, fun kb pairs c h => mergeResult_correct_fix pairs kb c h,
    fun kb rows => ?_⟩
  induction rows generalizing kb with
  | nil => exact fun c h => h
  | cons r rest ih =>
    intro c h
    exact ih (mergeResult kb r) c (mergeResult_correct_fix r kb c h)

/-- A sample keyboard map for the witness: letter `A` recorded `Correct`,
everything else untouched. -/
def kbEx : Char → KeyStatus :=
  fun c => if c = 'A' then KeyStatus.correct else KeyStatus.unset

theorem keyboard_merge_monotone_witness :
    mergeResult kbEx [('A', TileStatus.absent)] 'A' = KeyStatus.correct :=
  keyboard_merge_monotone.2.1 kbEx [('A', TileStatus.absent)] 'A' (by decide)
